import Mathlib

/-!
Verification of the batched parallel-iteration protocol of
`gatb/tools/designpattern/api/ICommand.hpp`.

The header defines `ICommandDispatcher::iterate` (two overloads) and the inner
worker `ICommandDispatcher::IteratorCommand<Item,Functor>::execute`.  The
shallow embedding below models:

* the shared iterator (`Iterator<Item>`, whose header is not among the
  sources; its `get` contract is modelled from the spec as `fetchBatch`);
* one loop iteration of `IteratorCommand::execute` as `stepWorker`
  (lock, fetch a batch, unlock, feed each fetched item to the functor);
* an interleaved multi-worker run as `run`, driven by a schedule that says
  which worker wins the synchronizer for each fetch.  Fetches are serialized
  by the lock, so any concurrent execution is captured by some schedule;
  a worker's processing touches only its private functor state, so folding
  it with the fetch step is observationally equivalent;
* the two `iterate` overloads, including synchronizer lifecycle and the
  functor heap (`store`), so that copy creation and deletion are visible;
* a separate single-worker trace semantics `executeLoop` recording
  lock/unlock/invoke events, where the fetch may fail the way a C++
  exception thrown by `get` would (used for the lock-discipline claims).
-/

namespace GatbICommand

/-- State of one functor object heap: the C++ callers own `Functor*` objects;
we model the collection of functor objects reachable by pointers as a list
`store : List β`, a worker holding the index of its functor. -/
structure WorkerState (α : Type) where
  fidx : Nat
  fetched : List (Nat × Nat)
  items : List α
  done : Bool
deriving DecidableEq

/-- Global state of one `dispatchCommands` run over the `IteratorCommand`s:
the shared iterator cursor, the functor heap, and the per-worker states. -/
structure RunState (α β : Type) where
  cursor : Nat
  store : List β
  workers : List (WorkerState α)
deriving DecidableEq

/-- Modelled from the spec: `Iterator<Item>::get(std::vector<Item>&)`
(`Iterator.hpp` is not among the sources).  Per the spec, a fetch returns up
to `G` items from the cursor position onward — the last batch may be shorter —
together with a flag telling whether more items remain. -/
def fetchBatch (src : List α) (G cursor : Nat) : List α × Bool × Nat :=
  let items := (src.drop cursor).take G
  (items, decide (cursor + items.length < src.length), cursor + items.length)

/-- One iteration of the loop body of `IteratorCommand::execute`
(ICommand.hpp lines 222-237) performed by worker `w`:
`_synchro.lock(); isRunning = _it->get(items); _synchro.unlock();`
followed by `for i < items.size(): (*_fct)(items[i])`.
A worker whose previous fetch already returned `isRunning = false` has left
its loop and does nothing.  The fetch is recorded as `(start, length)`. -/
def stepWorker [Inhabited β] (app : β → α → β) (src : List α) (G : Nat)
    (s : RunState α β) (w : Nat) : RunState α β :=
  match s.workers.get? w with
  | none => s
  | some ws =>
    if ws.done then s else
      let fr := fetchBatch src G s.cursor
      { cursor := fr.2.2
        store := s.store.set ws.fidx (fr.1.foldl app (s.store.getD ws.fidx default))
        workers := s.workers.set w
          { fidx := ws.fidx
            fetched := ws.fetched ++ [(s.cursor, fr.1.length)]
            items := ws.items ++ fr.1
            done := !fr.2.1 } }

/-- Interleaved execution of all `IteratorCommand`s under `dispatchCommands`:
`sched` lists, in order, which worker acquires the synchronizer for each
fetch.  Every concurrent interleaving of the lock-protected fetches is some
schedule. -/
def run [Inhabited β] (app : β → α → β) (src : List α) (G : Nat)
    (s : RunState α β) (sched : List Nat) : RunState α β :=
  sched.foldl (stepWorker app src G) s

/-- Result of one `ICommandDispatcher::iterate` call (functor-list overload,
ICommand.hpp lines 151-170), recording the synchronizer id bound into each
`IteratorCommand`, the number of commands dispatched, the final run state,
and the synchronizer lifecycle facts. -/
structure IterateResult (α β : Type) where
  synchroId : Nat
  commandSynchros : List Nat
  commandCount : Nat
  final : RunState α β
  synchroDestroyed : Bool
  nextSynchro : Nat
deriving DecidableEq

/-- Embedding of the functor-list overload of `ICommandDispatcher::iterate`
(ICommand.hpp lines 151-170).  In source order: `newSynchro()` yields the
fresh synchronizer `syn`; one `IteratorCommand` per functor is built, each
bound to the iterator, its functor index, the shared synchronizer and
`groupSize`; `iterator->reset()` puts the cursor at 0, discarding
`priorCursor` (any previous partial consumption of the iterator);
`dispatchCommands` runs the workers (under schedule `sched`); finally
`delete synchro` destroys the synchronizer and the next allocation would
return a fresh id. -/
def iterate [Inhabited β] (app : β → α → β) (src : List α) (priorCursor : Nat)
    (store : List β) (fidxs : List Nat) (G : Nat) (sched : List Nat)
    (syn : Nat) : IterateResult α β :=
  let commands := fidxs.map (fun i => (i, syn))
  let final := run app src G
    { cursor := 0
      store := store
      workers := commands.map
        (fun c => { fidx := c.1, fetched := [], items := [], done := false }) }
    sched
  { synchroId := syn
    commandSynchros := commands.map (fun c => c.2)
    commandCount := commands.length
    final := final
    synchroDestroyed := true
    nextSynchro := syn + 1 }

/-- Result of the single-functor convenience overload of `iterate`
(ICommand.hpp lines 173-194): the vector of functor copies created, the
delegated list-overload call, and the caller-visible functor heap after the
copies have been deleted. -/
structure Iterate1Result (α β : Type) where
  copies : List β
  run : IterateResult α β
  finalStore : List β
deriving DecidableEq

/-- Embedding of the single-functor overload of `ICommandDispatcher::iterate`
(ICommand.hpp lines 173-194).  `store` is the caller's functor heap and `i0`
the index of the caller's functor (passed by const reference).  In source
order: `units = getExecutionUnitsNumber()` copies of the functor are
allocated (`new Functor(functor)`), appended at the end of the heap; the
functor-list overload is run over exactly those copies; the copies are then
deleted, so the caller-visible heap is the original prefix again. -/
def iterate1 [Inhabited β] (app : β → α → β) (src : List α) (priorCursor : Nat)
    (store : List β) (i0 : Nat) (units : Nat) (G : Nat) (sched : List Nat)
    (syn : Nat) : Iterate1Result α β :=
  let f := store.getD i0 default
  let copies := List.replicate units f
  let idxs := List.range' store.length units
  let r := iterate app src priorCursor (store ++ copies) idxs G sched syn
  { copies := copies
    run := r
    finalStore := r.final.store.take store.length }

/-- All workers have left their loop: `dispatchCommands` has returned. -/
def allDone (s : RunState α β) : Bool := s.workers.all (fun w => w.done)

/-- The items passed to the functors, over all workers together. -/
def allItems (s : RunState α β) : List α :=
  (s.workers.map WorkerState.items).flatten

/-- Source positions of the items a worker fetched, in processing order. -/
def positionsOfW (w : WorkerState α) : List Nat :=
  (w.fetched.map (fun p => List.range' p.1 p.2)).flatten

/-- The contiguous slice of the source described by one recorded fetch. -/
def fetchSlice (src : List α) (p : Nat × Nat) : List α :=
  (src.drop p.1).take p.2

/-- Number of non-empty fetches performed so far, over all workers. -/
def nfetch (s : RunState α β) : Nat :=
  (s.workers.map (fun w => w.fetched.countP (fun p => decide (0 < p.2)))).sum

/-- Events observable from one `IteratorCommand::execute` run:
synchronizer operations and functor invocations. -/
inductive Event (α : Type) where
  | lock : Event α
  | unlock : Event α
  | invoke : α → Event α
deriving DecidableEq

/-- Recognizer for `Event.lock`. -/
def isLock : Event α → Bool
  | Event.lock => true
  | _ => false

/-- Recognizer for `Event.unlock`. -/
def isUnlock : Event α → Bool
  | Event.unlock => true
  | _ => false

/-- Single-worker trace semantics of `IteratorCommand::execute`
(ICommand.hpp lines 216-238), faithful to the statement order of the loop
body: `_synchro.lock()`, then `_it->get(items)`, then `_synchro.unlock()`,
then one functor invocation per fetched item; the loop continues while
`isRunning`.  The fetch runs over an abstract shared-iterator state `σ` and
may fail (`Except.error`), modelling a C++ exception thrown by `get`
(SourceAccessFailure): the exception propagates out of `execute` at the
point of the call, so the trailing `unlock` statement is not reached.
`fuel` bounds the number of loop iterations; a run that returns within the
fuel is a complete run of `execute`. -/
def executeLoop (fetch : σ → Except ε (List α × Bool × σ)) :
    Nat → σ → List (Event α) × σ × Option ε
  | 0, s => ([], s, none)
  | fuel+1, s =>
    match fetch s with
    | .error e => ([Event.lock], s, some e)
    | .ok (items, isRunning, s') =>
      if isRunning then
        let r := executeLoop fetch fuel s'
        (Event.lock :: Event.unlock :: (items.map Event.invoke ++ r.1),
          r.2.1, r.2.2)
      else
        (Event.lock :: Event.unlock :: items.map Event.invoke, s', none)

/-- True when every `invoke` event of the trace happens at lock depth `d = 0`,
i.e. the synchronizer is not held while the functor runs. -/
def invokesUnlocked : Nat → List (Event α) → Bool
  | _, [] => true
  | d, Event.lock :: t => invokesUnlocked (d + 1) t
  | d, Event.unlock :: t => invokesUnlocked (d - 1) t
  | d, Event.invoke _ :: t => decide (d = 0) && invokesUnlocked d t

/-- Net lock depth after a trace, starting from depth `d`. -/
def depthAfter : Nat → List (Event α) → Nat
  | d, [] => d
  | d, Event.lock :: t => depthAfter (d + 1) t
  | d, Event.unlock :: t => depthAfter (d - 1) t
  | d, Event.invoke _ :: t => depthAfter d t

/-! ### List helper lemmas -/

/-- Setting an index back to the value already there leaves the list alone. -/
theorem set_get?_self {γ : Type} (L : List γ) (n : Nat) (a : γ)
    (h : L.get? n = some a) : L.set n a = L := by
  induction L generalizing n with
  | nil => simp at h
  | cons x t ih =>
    cases n with
    | zero => simp_all
    | succ m =>
      simp only [List.get?_cons_succ] at h
      simp [List.set_cons_succ, ih m h]

/-- Replacing one element whose image under `f` grows by a suffix `d`
permutes the flattened image, moving `d` to the end. -/
theorem flatten_map_set_perm {γ δ : Type} (f : γ → List δ) (L : List γ)
    (n : Nat) (x x' : γ) (d : List δ) (hx : L.get? n = some x)
    (hx' : f x' = f x ++ d) :
    ((L.set n x').map f).flatten.Perm ((L.map f).flatten ++ d) := by
  induction L generalizing n with
  | nil => simp at hx
  | cons y t ih =>
    cases n with
    | zero =>
      simp only [List.get?_cons_zero, Option.some.injEq] at hx
      subst hx
      simp only [List.set_cons_zero, List.map_cons, List.flatten_cons, hx']
      rw [List.append_assoc, List.append_assoc]
      exact List.Perm.append_left _ List.perm_append_comm
    | succ m =>
      simp only [List.get?_cons_succ] at hx
      simp only [List.set_cons_succ, List.map_cons, List.flatten_cons]
      rw [List.append_assoc]
      exact List.Perm.append_left _ (ih m hx)

/-- Replacing one element whose `f`-value grows by `d` adds `d` to the sum. -/
theorem sum_map_set_add {γ : Type} (f : γ → Nat) (L : List γ) (n : Nat)
    (x x' : γ) (d : Nat) (hx : L.get? n = some x) (hx' : f x' = f x + d) :
    ((L.set n x').map f).sum = (L.map f).sum + d := by
  induction L generalizing n with
  | nil => simp at hx
  | cons y t ih =>
    cases n with
    | zero =>
      simp only [List.get?_cons_zero, Option.some.injEq] at hx
      subst hx
      simp only [List.set_cons_zero, List.map_cons, List.sum_cons, hx']
      omega
    | succ m =>
      simp only [List.get?_cons_succ] at hx
      simp only [List.set_cons_succ, List.map_cons, List.sum_cons, ih m hx]
      omega

/-- If the values of `f` over a list sum to less than the list's length,
some element has `f`-value zero. -/
theorem exists_zero_of_sum_lt {γ : Type} (f : γ → Nat) (L : List γ)
    (h : (L.map f).sum < L.length) : ∃ x ∈ L, f x = 0 := by
  induction L with
  | nil => simp at h
  | cons y t ih =>
    by_cases hy : f y = 0
    · exact ⟨y, List.mem_cons_self _ _, hy⟩
    · have h1 : 1 ≤ f y := Nat.one_le_iff_ne_zero.mpr hy
      simp only [List.map_cons, List.sum_cons, List.length_cons] at h
      obtain ⟨x, hx, hx0⟩ := ih (by omega)
      exact ⟨x, List.mem_cons_of_mem _ hx, hx0⟩

/-- Membership in a step-1 `range'` is an interval condition. -/
theorem mem_range1 {s n x : Nat} : x ∈ List.range' s n ↔ s ≤ x ∧ x < s + n := by
  rw [List.mem_range']
  constructor
  · rintro ⟨i, hi, rfl⟩; omega
  · rintro ⟨h1, h2⟩; exact ⟨x - s, by omega, by omega⟩

/-- Step-1 `range'` concatenates along contiguous intervals. -/
theorem range1_append (s m n : Nat) :
    List.range' s m ++ List.range' (s + m) n = List.range' s (m + n) := by
  have h := List.range'_append s m n 1
  simp only [Nat.one_mul] at h
  rw [h, Nat.add_comm m n]

/-- Indexing into a step-1 `range'`. -/
theorem range1_get? {s n i : Nat} (h : i < n) :
    (List.range' s n).get? i = some (s + i) := by
  induction n generalizing s i with
  | zero => omega
  | succ m ih =>
    rw [List.range'_succ]
    cases i with
    | zero => simp
    | succ j =>
      simp only [List.get?_cons_succ]
      rw [ih (by omega)]
      congr 1
      omega

/-- A sublist of `y` is a sublist of anything extending `y` on the left. -/
theorem sublist_append_any {γ : Type} (A : List γ) {x y : List γ}
    (h : x.Sublist y) : x.Sublist (A ++ y) := by
  induction A with
  | nil => simp only [List.nil_append]; exact h
  | cons a t ih => exact ih.cons a

/-- In a `Nodup` list, an element appears at a single index. -/
theorem nodup_get?_inj {γ : Type} {L : List γ} (hnd : L.Nodup) {n m : Nat}
    {a : γ} (hn : L.get? n = some a) (hm : L.get? m = some a) : n = m := by
  induction L generalizing n m with
  | nil => simp at hn
  | cons y t ih =>
    rcases List.nodup_cons.mp hnd with ⟨hy, ht⟩
    cases n with
    | zero =>
      simp only [List.get?_cons_zero, Option.some.injEq] at hn
      cases m with
      | zero => rfl
      | succ k =>
        simp only [List.get?_cons_succ] at hm
        exact absurd (hn ▸ List.get?_mem hm) hy
    | succ j =>
      cases m with
      | zero =>
        simp only [List.get?_cons_zero, Option.some.injEq] at hm
        simp only [List.get?_cons_succ] at hn
        exact absurd (hm ▸ List.get?_mem hn) hy
      | succ k =>
        simp only [List.get?_cons_succ] at hn hm
        exact congrArg Nat.succ (ih ht hn hm)

/-- The concatenation of slices of `src` taken along a chain of
non-overlapping, left-to-right fetch records is a sublist of the part of
`src` from position `c` on. -/
theorem flatten_slices_sublist {α : Type} (src : List α) :
    ∀ (fs : List (Nat × Nat)) (c : Nat),
      List.Chain' (fun p q : Nat × Nat => p.1 + p.2 ≤ q.1) fs →
      (∀ p ∈ fs, p.1 + p.2 ≤ src.length) →
      (∀ p ∈ fs.head?, c ≤ p.1) →
      ((fs.map (fetchSlice src)).flatten).Sublist (src.drop c)
  | [], c, _, _, _ => by simp
  | p :: rest, c, hch, hbnd, hhd => by
    have hcp : c ≤ p.1 := hhd p rfl
    have hrest : ((rest.map (fetchSlice src)).flatten).Sublist
        (src.drop (p.1 + p.2)) := by
      refine flatten_slices_sublist src rest (p.1 + p.2)
        (List.chain'_cons'.mp hch).2
        (fun q hq => hbnd q (List.mem_cons_of_mem _ hq))
        (fun q hq => (List.chain'_cons'.mp hch).1 q hq)
    have hdecomp : src.drop c
        = (src.drop c).take (p.1 - c) ++ (fetchSlice src p
            ++ src.drop (p.1 + p.2)) := by
      have h1 : (src.drop c).drop (p.1 - c) = src.drop p.1 := by
        rw [List.drop_drop]
        congr 1
        omega
      have h2 : src.drop p.1 = fetchSlice src p ++ src.drop (p.1 + p.2) := by
        unfold fetchSlice
        rw [← List.drop_drop]
        exact (List.take_append_drop p.2 (src.drop p.1)).symm
      conv_lhs => rw [← List.take_append_drop (p.1 - c) (src.drop c)]
      rw [h1, h2]
    rw [hdecomp]
    simp only [List.map_cons, List.flatten_cons]
    exact sublist_append_any _
      (List.Sublist.append (List.Sublist.refl _) hrest)

/-! ### The run invariant -/

/-- Invariant of the interleaved multi-worker run, relating a reachable
`RunState` to the source list, the group size, the initial functor heap
`store₀` and the functor indices `fidxs₀` the workers were built with. -/
structure Inv {α β : Type} (app : β → α → β) (src : List α) (G : Nat)
    (store₀ : List β) (fidxs₀ : List Nat) (s : RunState α β) : Prop where
  hcur : s.cursor ≤ src.length
  hperm : (allItems s).Perm (src.take s.cursor)
  hpos : ((s.workers.map positionsOfW).flatten).Perm (List.range' 0 s.cursor)
  hfetch : ∀ w ∈ s.workers, ∀ p ∈ w.fetched,
    p.1 + p.2 ≤ s.cursor ∧ (p.2 = G ∨ p.1 + p.2 = src.length)
  hchain : ∀ w ∈ s.workers,
    List.Chain' (fun p q : Nat × Nat => p.1 + p.2 ≤ q.1) w.fetched
  hitems : ∀ w ∈ s.workers, w.items = (w.fetched.map (fetchSlice src)).flatten
  hlive : ∀ w ∈ s.workers, w.done = false →
    ∀ p ∈ w.fetched, p.1 + p.2 < src.length
  hdone : ∀ w ∈ s.workers, w.done = true →
    ∃ pre q, w.fetched = pre ++ [q] ∧ q.1 + q.2 = src.length ∧
      ∀ p ∈ pre, p.1 + p.2 < src.length
  hfull : s.cursor < src.length → s.cursor = G * nfetch s
  hfinal : s.cursor = src.length → 0 < nfetch s →
    G * (nfetch s - 1) < src.length
  hk0 : nfetch s = 0 → s.cursor = 0
  hmap : s.workers.map WorkerState.fidx = fidxs₀
  hslen : s.store.length = store₀.length
  huntouched : ∀ j, j ∉ fidxs₀ → s.store.get? j = store₀.get? j
  hstore : fidxs₀.Nodup → (∀ i ∈ fidxs₀, i < store₀.length) →
    ∀ n w, s.workers.get? n = some w → ∀ v, store₀.get? w.fidx = some v →
      s.store.get? w.fidx = some (w.items.foldl app v)

/-- The invariant holds at the state `iterate` hands to `dispatchCommands`:
cursor just reset to 0, untouched heap, one fresh worker per functor. -/
theorem inv_init {α β : Type} (app : β → α → β) (src : List α) (G : Nat)
    (store : List β) (fidxs : List Nat) :
    Inv app src G store fidxs
      { cursor := 0, store := store
        workers := fidxs.map (fun i =>
          { fidx := i, fetched := [], items := [], done := false }) } := by
  constructor
  case hcur => exact Nat.zero_le _
  case hperm =>
    have : allItems (α := α) (β := β)
        { cursor := 0, store := store
          workers := fidxs.map (fun i =>
            { fidx := i, fetched := [], items := [], done := false }) }
        = [] := by
      simp [allItems, List.map_map, Function.comp_def, List.flatten_eq_nil_iff]
    rw [this]
    simp
  case hpos =>
    simp [positionsOfW, List.map_map, Function.comp_def,
      List.flatten_eq_nil_iff]
  case hfetch =>
    intro w hw p hp
    simp only [List.mem_map] at hw
    obtain ⟨i, _, rfl⟩ := hw
    simp at hp
  case hchain =>
    intro w hw
    simp only [List.mem_map] at hw
    obtain ⟨i, _, rfl⟩ := hw
    simp
  case hitems =>
    intro w hw
    simp only [List.mem_map] at hw
    obtain ⟨i, _, rfl⟩ := hw
    simp
  case hlive =>
    intro w hw _ p hp
    simp only [List.mem_map] at hw
    obtain ⟨i, _, rfl⟩ := hw
    simp at hp
  case hdone =>
    intro w hw hd
    simp only [List.mem_map] at hw
    obtain ⟨i, _, rfl⟩ := hw
    simp at hd
  case hfull => intro _; simp [nfetch, List.map_map, Function.comp_def]
  case hfinal =>
    intro _ hk
    simp [nfetch, List.map_map, Function.comp_def] at hk
  case hk0 => intro _; rfl
  case hmap => simp [List.map_map, Function.comp_def]
  case hslen => rfl
  case huntouched => intro j _; rfl
  case hstore =>
    intro _ _ n w hget v hv
    simp only [List.get?_map, Option.map_eq_some'] at hget
    obtain ⟨i, _, rfl⟩ := hget
    simpa using hv

/-- Scheduling a worker index that does not exist changes nothing. -/
theorem stepWorker_eq_of_none {α β : Type} [Inhabited β] (app : β → α → β)
    (src : List α) (G : Nat) (s : RunState α β) (w : Nat)
    (hw : s.workers.get? w = none) : stepWorker app src G s w = s := by
  unfold stepWorker
  rw [hw]

/-- Scheduling a worker that has already left its loop changes nothing. -/
theorem stepWorker_eq_of_done {α β : Type} [Inhabited β] (app : β → α → β)
    (src : List α) (G : Nat) (s : RunState α β) (w : Nat) (ws : WorkerState α)
    (hw : s.workers.get? w = some ws) (hd : ws.done = true) :
    stepWorker app src G s w = s := by
  unfold stepWorker
  rw [hw]
  simp [hd]

/-- Result of one loop iteration by a still-running worker, written out. -/
theorem stepWorker_eq_of_active {α β : Type} [Inhabited β] (app : β → α → β)
    (src : List α) (G : Nat) (s : RunState α β) (w : Nat) (ws : WorkerState α)
    (hw : s.workers.get? w = some ws) (hd : ws.done = false) :
    stepWorker app src G s w =
      { cursor := s.cursor + ((src.drop s.cursor).take G).length
        store := s.store.set ws.fidx
          (((src.drop s.cursor).take G).foldl app (s.store.getD ws.fidx default))
        workers := s.workers.set w
          { fidx := ws.fidx
            fetched := ws.fetched
              ++ [(s.cursor, ((src.drop s.cursor).take G).length)]
            items := ws.items ++ (src.drop s.cursor).take G
            done := !decide (s.cursor + ((src.drop s.cursor).take G).length
              < src.length) } } := by
  unfold stepWorker fetchBatch
  rw [hw]
  simp [hd]

/-- One scheduled loop iteration of any worker preserves the invariant. -/
theorem inv_step {α β : Type} [Inhabited β] {app : β → α → β} {src : List α}
    {G : Nat} {store₀ : List β} {fidxs₀ : List Nat} {s : RunState α β}
    (H : Inv app src G store₀ fidxs₀ s) (w : Nat) :
    Inv app src G store₀ fidxs₀ (stepWorker app src G s w) := by
  cases hw : s.workers.get? w with
  | none => rw [stepWorker_eq_of_none app src G s w hw]; exact H
  | some ws =>
    cases hd : ws.done with
    | true => rw [stepWorker_eq_of_done app src G s w ws hw hd]; exact H
    | false =>
      rw [stepWorker_eq_of_active app src G s w ws hw hd]
      have hmemws : ws ∈ s.workers := List.get?_mem hw
      have hfidxmem : ws.fidx ∈ fidxs₀ := by
        rw [← H.hmap]; exact List.mem_map_of_mem _ hmemws
      have hcle : s.cursor ≤ src.length := H.hcur
      have hlen : ((src.drop s.cursor).take G).length
          = min G (src.length - s.cursor) := by
        simp [List.length_take, List.length_drop]
      have hc' : s.cursor + ((src.drop s.cursor).take G).length
          ≤ src.length := by omega
      have hslice : (src.drop s.cursor).take ((src.drop s.cursor).take G).length
          = (src.drop s.cursor).take G := by
        rcases Nat.le_total G (src.length - s.cursor) with hle | hle
        · have hG : ((src.drop s.cursor).take G).length = G := by omega
          rw [hG]
        · have hdl : (src.drop s.cursor).length = src.length - s.cursor := by
            simp [List.length_drop]
          rw [List.take_all_of_le (by omega),
            List.take_all_of_le (by omega)]
      have hcnt : ((ws.fetched
            ++ [(s.cursor, ((src.drop s.cursor).take G).length)]).countP
              (fun p => decide (0 < p.2)))
          = (ws.fetched.countP (fun p => decide (0 < p.2)))
            + (if 0 < ((src.drop s.cursor).take G).length then 1 else 0) := by
        by_cases h0 : 0 < ((src.drop s.cursor).take G).length <;>
          simp [List.countP_append, List.countP_cons, h0]
      constructor
      case hcur => exact hc'
      case hperm =>
        show (allItems _).Perm _
        have hstep := flatten_map_set_perm WorkerState.items s.workers w ws
          { fidx := ws.fidx
            fetched := ws.fetched
              ++ [(s.cursor, ((src.drop s.cursor).take G).length)]
            items := ws.items ++ (src.drop s.cursor).take G
            done := !decide (s.cursor + ((src.drop s.cursor).take G).length
              < src.length) }
          ((src.drop s.cursor).take G) hw rfl
        refine hstep.trans ?_
        refine (List.Perm.append_right _ H.hperm).trans ?_
        have h2 : src.take (s.cursor + ((src.drop s.cursor).take G).length)
            = src.take s.cursor ++ (src.drop s.cursor).take G := by
          rw [List.take_add, hslice]
        rw [h2]
      case hpos =>
        show (((s.workers.set w _).map positionsOfW).flatten).Perm _
        have hposws : positionsOfW
            { fidx := ws.fidx
              fetched := ws.fetched
                ++ [(s.cursor, ((src.drop s.cursor).take G).length)]
              items := ws.items ++ (src.drop s.cursor).take G
              done := !decide (s.cursor + ((src.drop s.cursor).take G).length
                < src.length) }
            = positionsOfW ws
              ++ List.range' s.cursor ((src.drop s.cursor).take G).length := by
          show ((_ ++ [_]).map _).flatten = _
          rw [List.map_append, List.flatten_append]
          simp [positionsOfW]
        have hstep := flatten_map_set_perm positionsOfW s.workers w ws _
          (List.range' s.cursor ((src.drop s.cursor).take G).length) hw hposws
        refine hstep.trans ?_
        refine (List.Perm.append_right _ H.hpos).trans ?_
        have h3 : List.range' 0 s.cursor
              ++ List.range' s.cursor ((src.drop s.cursor).take G).length
            = List.range' 0 (s.cursor + ((src.drop s.cursor).take G).length)
            := by
          have h := range1_append 0 s.cursor ((src.drop s.cursor).take G).length
          simpa using h
        rw [h3]
      case hfetch =>
        intro w' hw' p hp
        rcases List.mem_or_eq_of_mem_set hw' with hold | rfl
        · have h1 := H.hfetch w' hold p hp
          refine ⟨?_, h1.2⟩
          show p.1 + p.2 ≤ s.cursor + ((src.drop s.cursor).take G).length
          omega
        · rcases List.mem_append.mp hp with hpold | hpnew
          · have h1 := H.hfetch ws hmemws p hpold
            refine ⟨?_, h1.2⟩
            show p.1 + p.2 ≤ s.cursor + ((src.drop s.cursor).take G).length
            omega
          · have hpe := List.mem_singleton.mp hpnew
            subst hpe
            constructor
            · show s.cursor + ((src.drop s.cursor).take G).length
                ≤ s.cursor + ((src.drop s.cursor).take G).length
              exact le_refl _
            · show ((src.drop s.cursor).take G).length = G
                ∨ s.cursor + ((src.drop s.cursor).take G).length = src.length
              omega
      case hchain =>
        intro w' hw'
        rcases List.mem_or_eq_of_mem_set hw' with hold | rfl
        · exact H.hchain w' hold
        · refine List.chain'_append.mpr
            ⟨H.hchain ws hmemws, List.chain'_singleton _, ?_⟩
          intro x hx y hy
          have hxmem : x ∈ ws.fetched := List.mem_of_mem_getLast? hx
          have h1 := (H.hfetch ws hmemws x hxmem).1
          simp only [List.head?_cons, Option.mem_def, Option.some.injEq] at hy
          subst hy
          exact h1
      case hitems =>
        intro w' hw'
        rcases List.mem_or_eq_of_mem_set hw' with hold | rfl
        · exact H.hitems w' hold
        · show ws.items ++ _ = ((_ ++ [_]).map _).flatten
          rw [List.map_append, List.flatten_append, ← H.hitems ws hmemws]
          simp [fetchSlice, hslice]
      case hlive =>
        intro w' hw' hdf p hp
        rcases List.mem_or_eq_of_mem_set hw' with hold | rfl
        · exact H.hlive w' hold hdf p hp
        · have hdf' : (!decide (s.cursor
              + ((src.drop s.cursor).take G).length < src.length)) = false :=
            hdf
          simp only [Bool.not_eq_false', decide_eq_true_eq] at hdf'
          rcases List.mem_append.mp hp with hpold | hpnew
          · exact H.hlive ws hmemws hd p hpold
          · have hpe := List.mem_singleton.mp hpnew
            subst hpe
            exact hdf'
      case hdone =>
        intro w' hw' hdt
        rcases List.mem_or_eq_of_mem_set hw' with hold | rfl
        · exact H.hdone w' hold hdt
        · have hdt' : (!decide (s.cursor
              + ((src.drop s.cursor).take G).length < src.length)) = true :=
            hdt
          simp only [Bool.not_eq_true', decide_eq_false_iff_not] at hdt'
          refine ⟨ws.fetched, (s.cursor, ((src.drop s.cursor).take G).length),
            rfl, ?_, H.hlive ws hmemws hd⟩
          show s.cursor + ((src.drop s.cursor).take G).length = src.length
          omega
      case hfull =>
        show s.cursor + _ < src.length → _ = G * nfetch _
        intro hlt
        have hnf : nfetch (stepWorker app src G s w) = nfetch s
            + (if 0 < ((src.drop s.cursor).take G).length then 1 else 0) := by
          rw [stepWorker_eq_of_active app src G s w ws hw hd]
          exact sum_map_set_add _ s.workers w ws _ _ hw hcnt
        rw [stepWorker_eq_of_active app src G s w ws hw hd] at hnf
        by_cases h0 : 0 < ((src.drop s.cursor).take G).length
        · have hblG : ((src.drop s.cursor).take G).length = G := by omega
          have hcN : s.cursor < src.length := by omega
          rw [hnf, if_pos h0, Nat.mul_add, Nat.mul_one, ← H.hfull hcN, hblG]
        · rw [hnf, if_neg h0]
          have hbl0 : ((src.drop s.cursor).take G).length = 0 := by omega
          rw [hbl0, Nat.add_zero, Nat.add_zero]
          exact H.hfull (by omega)
      case hfinal =>
        show s.cursor + _ = src.length → 0 < nfetch _ →
          G * (nfetch _ - 1) < src.length
        intro heq hpos
        have hnf : nfetch (stepWorker app src G s w) = nfetch s
            + (if 0 < ((src.drop s.cursor).take G).length then 1 else 0) := by
          rw [stepWorker_eq_of_active app src G s w ws hw hd]
          exact sum_map_set_add _ s.workers w ws _ _ hw hcnt
        rw [stepWorker_eq_of_active app src G s w ws hw hd] at hnf
        rw [hnf] at hpos ⊢
        by_cases h0 : 0 < ((src.drop s.cursor).take G).length
        · have hcN : s.cursor < src.length := by omega
          rw [if_pos h0] at hpos ⊢
          have : nfetch s + 1 - 1 = nfetch s := by omega
          rw [this, ← H.hfull hcN]
          omega
        · have hbl0 : ((src.drop s.cursor).take G).length = 0 := by omega
          rw [if_neg h0] at hpos ⊢
          rw [Nat.add_zero] at hpos ⊢
          exact H.hfinal (by omega) hpos
      case hk0 =>
        show nfetch _ = 0 → s.cursor + _ = 0
        intro hz
        have hnf : nfetch (stepWorker app src G s w) = nfetch s
            + (if 0 < ((src.drop s.cursor).take G).length then 1 else 0) := by
          rw [stepWorker_eq_of_active app src G s w ws hw hd]
          exact sum_map_set_add _ s.workers w ws _ _ hw hcnt
        rw [stepWorker_eq_of_active app src G s w ws hw hd] at hnf
        rw [hnf] at hz
        by_cases h0 : 0 < ((src.drop s.cursor).take G).length
        · rw [if_pos h0] at hz; omega
        · rw [if_neg h0] at hz
          rw [Nat.add_zero] at hz
          have := H.hk0 hz
          omega
      case hmap =>
        show (s.workers.set w _).map WorkerState.fidx = fidxs₀
        rw [List.map_set]
        have hg : (s.workers.map WorkerState.fidx).get? w = some ws.fidx := by
          rw [List.get?_map, hw]; rfl
        rw [set_get?_self _ _ _ hg, H.hmap]
      case hslen =>
        show (s.store.set _ _).length = store₀.length
        rw [List.length_set, H.hslen]
      case huntouched =>
        intro j hj
        show (s.store.set ws.fidx _).get? j = store₀.get? j
        have hne : ws.fidx ≠ j := fun he => hj (he ▸ hfidxmem)
        rw [List.get?_set_ne _ _ hne, H.huntouched j hj]
      case hstore =>
        intro hnd hbound n w' hget v hv
        by_cases hnw : n = w
        · subst hnw
          rw [List.get?_set_eq, hw] at hget
          simp only [Option.map_eq_map, Option.map_some',
            Option.some.injEq] at hget
          subst hget
          have hold := H.hstore hnd hbound n ws hw v hv
          show (s.store.set ws.fidx _).get? ws.fidx = _
          rw [List.get?_set_eq, hold]
          show some _ = some _
          congr 1
          have hgetd : s.store.getD ws.fidx default
              = ws.items.foldl app v := by
            rw [List.getD_eq_get?, hold]
            rfl
          rw [hgetd, ← List.foldl_append]
        · rw [List.get?_set_ne _ _ (fun he => hnw he.symm)] at hget
          have hold := H.hstore hnd hbound n w' hget v hv
          have hne : w'.fidx ≠ ws.fidx := by
            intro he
            have h1 : fidxs₀.get? n = some w'.fidx := by
              rw [← H.hmap, List.get?_map, hget]; rfl
            have h2 : fidxs₀.get? w = some ws.fidx := by
              rw [← H.hmap, List.get?_map, hw]; rfl
            exact hnw (nodup_get?_inj hnd h1 (he ▸ h2))
          show (s.store.set ws.fidx _).get? w'.fidx = _
          rw [List.get?_set_ne _ _ (fun he => hne he.symm), hold]

/-- The invariant is preserved by any schedule of loop iterations. -/
theorem inv_run {α β : Type} [Inhabited β] {app : β → α → β} {src : List α}
    {G : Nat} {store₀ : List β} {fidxs₀ : List Nat} {s : RunState α β}
    (H : Inv app src G store₀ fidxs₀ s) (sched : List Nat) :
    Inv app src G store₀ fidxs₀ (run app src G s sched) := by
  induction sched generalizing s with
  | nil => exact H
  | cons a t ih => exact ih (inv_step H a)

/-- The final state of `iterate` is the run from the reset initial state. -/
theorem iterate_final_eq {α β : Type} [Inhabited β] (app : β → α → β)
    (src : List α) (c0 : Nat) (store : List β) (fidxs : List Nat) (G : Nat)
    (sched : List Nat) (syn : Nat) :
    (iterate app src c0 store fidxs G sched syn).final
      = run app src G
        { cursor := 0, store := store
          workers := fidxs.map (fun i =>
            { fidx := i, fetched := [], items := [], done := false }) }
        sched := by
  simp [iterate, List.map_map, Function.comp_def]

/-- The invariant holds at the end of any `iterate` call. -/
theorem inv_iterate {α β : Type} [Inhabited β] (app : β → α → β)
    (src : List α) (c0 : Nat) (store : List β) (fidxs : List Nat) (G : Nat)
    (sched : List Nat) (syn : Nat) :
    Inv app src G store fidxs
      (iterate app src c0 store fidxs G sched syn).final := by
  rw [iterate_final_eq]
  exact inv_run (inv_init app src G store fidxs) sched

/-- A worker that has left its loop forces the shared cursor to the end. -/
theorem cursor_eq_of_done {α β : Type} {app : β → α → β} {src : List α}
    {G : Nat} {store₀ : List β} {fidxs₀ : List Nat} {s : RunState α β}
    (H : Inv app src G store₀ fidxs₀ s) {w : WorkerState α}
    (hmem : w ∈ s.workers) (hd : w.done = true) : s.cursor = src.length := by
  obtain ⟨pre, q, hfe, hqN, _⟩ := H.hdone w hmem hd
  have hq : q ∈ w.fetched := by
    rw [hfe]
    exact List.mem_append_right _ (List.mem_singleton_self _)
  have h1 := (H.hfetch w hmem q hq).1
  have h2 := H.hcur
  omega

/-- If all workers are done and there is at least one, some worker is done. -/
theorem exists_done_of_allDone {α β : Type} {s : RunState α β}
    (h : allDone s = true) (hne : s.workers ≠ []) :
    ∃ w ∈ s.workers, w.done = true := by
  obtain ⟨w, hw⟩ := List.exists_mem_of_ne_nil _ hne
  exact ⟨w, hw, List.all_eq_true.mp h w hw⟩

/-- With `groupSize = 0` every fetch is empty, so the cursor never moves. -/
theorem run_cursor_groupSize_zero {α β : Type} [Inhabited β] (app : β → α → β)
    (src : List α) (s : RunState α β) (sched : List Nat) :
    (run app src 0 s sched).cursor = s.cursor := by
  induction sched generalizing s with
  | nil => rfl
  | cons a t ih =>
    have hstep : (stepWorker app src 0 s a).cursor = s.cursor := by
      cases hw : s.workers.get? a with
      | none => rw [stepWorker_eq_of_none _ _ _ _ _ hw]
      | some ws =>
        cases hd : ws.done with
        | true => rw [stepWorker_eq_of_done _ _ _ _ _ _ hw hd]
        | false => rw [stepWorker_eq_of_active _ _ _ _ _ _ hw hd]; simp
    have hrun : run app src 0 s (a :: t) = run app src 0 (stepWorker app src 0 s a) t := rfl
    rw [hrun, ih, hstep]

/-! ### Claim theorems -/

/-- Concrete functor used in witnesses: sums the items it receives. -/
def addApp : Nat → Nat → Nat := fun b a => b + a

/-- C1.  Partition completeness: for every source sequence, every worker
count W >= 1 and every groupSize G >= 1, over a full `iterate` run (all
workers have terminated, whatever the interleaving of the lock-protected
fetches), the multiset of items passed to all functors together is exactly
the sequence the source produces end-to-end — no duplicates, no omissions. -/
theorem c1_partition_completeness {α β : Type} [Inhabited β] (app : β → α → β)
    (src : List α) (c0 : Nat) (store : List β) (fidxs : List Nat) (G : Nat)
    (sched : List Nat) (syn : Nat) (hW : 0 < fidxs.length) (hG : 0 < G)
    (hdone : allDone (iterate app src c0 store fidxs G sched syn).final
      = true) :
    (allItems (iterate app src c0 store fidxs G sched syn).final).Perm src := by
  have H := inv_iterate app src c0 store fidxs G sched syn
  have hlen := congrArg List.length H.hmap
  rw [List.length_map] at hlen
  have hne : (iterate app src c0 store fidxs G sched syn).final.workers
      ≠ [] := by
    intro h0
    rw [h0] at hlen
    simp at hlen
    omega
  obtain ⟨w, hwmem, hwd⟩ := exists_done_of_allDone hdone hne
  have hcN := cursor_eq_of_done H hwmem hwd
  have hp := H.hperm
  rw [hcN, List.take_length] at hp
  exact hp

/-- Witness for C1 at a concrete run: 3 items, 2 workers, groupSize 2. -/
theorem c1_witness :
    (allItems (iterate addApp [10, 20, 30] 0 [0, 0] [0, 1] 2 [0, 1, 0, 1]
      0).final).Perm [10, 20, 30] :=
  c1_partition_completeness addApp [10, 20, 30] 0 [0, 0] [0, 1] 2 [0, 1, 0, 1]
    0 (by decide) (by decide) (by decide)

/-- C6.  Per-worker ordering: for every single worker, the items it passes
to its functor are exactly its fetched batches concatenated in fetch order,
each batch being a contiguous slice of the source (so items within a batch
are in source order), the batches are non-overlapping and left-to-right,
and consequently the worker's whole processing sequence is a sublist of the
source sequence. -/
theorem c6_per_worker_ordering {α β : Type} [Inhabited β] (app : β → α → β)
    (src : List α) (c0 : Nat) (store : List β) (fidxs : List Nat) (G : Nat)
    (sched : List Nat) (syn : Nat) (w : WorkerState α)
    (hmem : w ∈ (iterate app src c0 store fidxs G sched syn).final.workers) :
    w.items = (w.fetched.map (fetchSlice src)).flatten ∧
    List.Chain' (fun p q : Nat × Nat => p.1 + p.2 ≤ q.1) w.fetched ∧
    w.items.Sublist src := by
  have H := inv_iterate app src c0 store fidxs G sched syn
  refine ⟨H.hitems w hmem, H.hchain w hmem, ?_⟩
  have hs := flatten_slices_sublist src w.fetched 0 (H.hchain w hmem)
    (fun p hp => by
      have h1 := (H.hfetch w hmem p hp).1
      have h2 := H.hcur
      omega)
    (fun p _ => Nat.zero_le _)
  rw [H.hitems w hmem]
  simpa using hs

/-- Witness for C6 at a concrete run, checking the first worker. -/
theorem c6_witness :
    (⟨0, [(0, 2), (3, 0)], [10, 20], true⟩ : WorkerState Nat).items
      = ((⟨0, [(0, 2), (3, 0)], [10, 20], true⟩ :
          WorkerState Nat).fetched.map (fetchSlice [10, 20, 30])).flatten ∧
    List.Chain' (fun p q : Nat × Nat => p.1 + p.2 ≤ q.1)
      (⟨0, [(0, 2), (3, 0)], [10, 20], true⟩ : WorkerState Nat).fetched ∧
    (⟨0, [(0, 2), (3, 0)], [10, 20], true⟩ :
      WorkerState Nat).items.Sublist [10, 20, 30] :=
  c6_per_worker_ordering addApp [10, 20, 30] 0 [0, 0] [0, 1] 2 [0, 1, 0, 1] 0
    ⟨0, [(0, 2), (3, 0)], [10, 20], true⟩ (by decide)

/-- C8.  Reset precedes dispatch: `iterate` calls `iterator->reset()` before
`dispatchCommands`, so its outcome is independent of any prior partial
consumption of the iterator (the `priorCursor` argument), and on a full run
over a non-empty source the enumeration demonstrably restarted at the first
item: some worker's recorded fetch starts at position 0. -/
theorem c8_reset_precedes_dispatch {α β : Type} [Inhabited β]
    (app : β → α → β) (src : List α) (store : List β) (fidxs : List Nat)
    (G : Nat) (sched : List Nat) (syn : Nat) (c0 c0' : Nat) :
    iterate app src c0 store fidxs G sched syn
      = iterate app src c0' store fidxs G sched syn ∧
    (allDone (iterate app src c0 store fidxs G sched syn).final = true →
      0 < src.length → 0 < fidxs.length →
      ∃ w ∈ (iterate app src c0 store fidxs G sched syn).final.workers,
        ∃ p ∈ w.fetched, p.1 = 0) := by
  refine ⟨rfl, ?_⟩
  intro hdone hsrc hW
  have H := inv_iterate app src c0 store fidxs G sched syn
  have hlen := congrArg List.length H.hmap
  rw [List.length_map] at hlen
  have hne : (iterate app src c0 store fidxs G sched syn).final.workers
      ≠ [] := by
    intro h0
    rw [h0] at hlen
    simp at hlen
    omega
  obtain ⟨w0, hw0mem, hw0d⟩ := exists_done_of_allDone hdone hne
  have hcN := cursor_eq_of_done H hw0mem hw0d
  have h0mem : 0 ∈ List.range' 0
      (iterate app src c0 store fidxs G sched syn).final.cursor := by
    rw [hcN]
    exact mem_range1.mpr ⟨le_refl 0, by omega⟩
  have h0flat := (H.hpos.mem_iff).mpr h0mem
  rw [List.mem_flatten] at h0flat
  obtain ⟨l, hl, h0l⟩ := h0flat
  rw [List.mem_map] at hl
  obtain ⟨w, hwmem, rfl⟩ := hl
  simp only [positionsOfW, List.mem_flatten, List.mem_map] at h0l
  obtain ⟨l2, ⟨p, hp, rfl⟩, h0p⟩ := h0l
  have hb := mem_range1.mp h0p
  exact ⟨w, hwmem, p, hp, by omega⟩

/-- Witness for C8: both the prior-cursor independence (cursors 7 vs 0) and
the existence of a fetch starting at position 0 on a full concrete run. -/
theorem c8_witness :
    iterate addApp [10, 20, 30] 7 [0, 0] [0, 1] 2 [0, 1, 0, 1] 0
      = iterate addApp [10, 20, 30] 0 [0, 0] [0, 1] 2 [0, 1, 0, 1] 0 ∧
    ∃ w ∈ (iterate addApp [10, 20, 30] 7 [0, 0] [0, 1] 2 [0, 1, 0, 1]
        0).final.workers, ∃ p ∈ w.fetched, p.1 = 0 :=
  ⟨(c8_reset_precedes_dispatch addApp [10, 20, 30] [0, 0] [0, 1] 2
      [0, 1, 0, 1] 0 7 0).1,
   (c8_reset_precedes_dispatch addApp [10, 20, 30] [0, 0] [0, 1] 2
      [0, 1, 0, 1] 0 7 0).2 (by decide) (by decide) (by decide)⟩

/-- C4.  Zero-length first batch: whenever the worker count exceeds
ceil(sourceSize / groupSize), on any full run some worker performed exactly
one fetch, namely a zero-length batch at the exhausted cursor (which comes
with the no-more-items signal, making it leave its loop at once), and that
worker invoked its functor zero times.  This is a valid outcome of the
protocol, not an error: the run above still satisfies `allDone`. -/
theorem c4_zero_length_first_batch {α β : Type} [Inhabited β]
    (app : β → α → β) (src : List α) (c0 : Nat) (store : List β)
    (fidxs : List Nat) (G : Nat) (sched : List Nat) (syn : Nat) (hG : 0 < G)
    (hdone : allDone (iterate app src c0 store fidxs G sched syn).final
      = true)
    (hW : (src.length + G - 1) / G < fidxs.length) :
    ∃ w ∈ (iterate app src c0 store fidxs G sched syn).final.workers,
      w.fetched = [(src.length, 0)] ∧ w.items = [] ∧ w.done = true := by
  have H := inv_iterate app src c0 store fidxs G sched syn
  have hlen := congrArg List.length H.hmap
  rw [List.length_map] at hlen
  have hk : nfetch (iterate app src c0 store fidxs G sched syn).final
      ≤ (src.length + G - 1) / G := by
    by_cases hN : src.length = 0
    · have hn0 : nfetch (iterate app src c0 store fidxs G sched syn).final
          = 0 := by
        apply List.sum_eq_zero
        intro x hx
        rw [List.mem_map] at hx
        obtain ⟨w, hwmem, rfl⟩ := hx
        rw [List.countP_eq_zero]
        intro p hp
        have h1 := (H.hfetch w hwmem p hp).1
        have h2 := H.hcur
        simp only [decide_eq_true_eq]
        omega
      rw [hn0]
      exact Nat.zero_le _
    · have hWpos : 0 < fidxs.length := Nat.lt_of_le_of_lt (Nat.zero_le _) hW
      have hne : (iterate app src c0 store fidxs G sched syn).final.workers
          ≠ [] := by
        intro h0
        rw [h0] at hlen
        simp at hlen
        omega
      obtain ⟨w0, hw0mem, hw0d⟩ := exists_done_of_allDone hdone hne
      have hcN := cursor_eq_of_done H hw0mem hw0d
      have hk1 : 0 < nfetch
          (iterate app src c0 store fidxs G sched syn).final := by
        by_contra h0
        have := H.hk0 (by omega)
        omega
      have hfin := H.hfinal hcN hk1
      have h2 : (nfetch (iterate app src c0 store fidxs G sched syn).final
          - 1) ≤ (src.length - 1) / G := by
        rw [Nat.le_div_iff_mul_le hG, Nat.mul_comm]
        omega
      have h3 : (src.length - 1) / G + 1 = (src.length + G - 1) / G := by
        have h4 := Nat.add_div_right (src.length - 1) hG
        rw [← h4]
        congr 1
        omega
      have h5 : nfetch (iterate app src c0 store fidxs G sched syn).final
          ≤ (nfetch (iterate app src c0 store fidxs G sched syn).final - 1)
            + 1 := by omega
      exact h5.trans (h3 ▸ Nat.add_le_add_right h2 1)
  have hsum : ((iterate app src c0 store fidxs G sched
        syn).final.workers.map (fun w =>
          w.fetched.countP (fun p => decide (0 < p.2)))).sum
      < (iterate app src c0 store fidxs G sched
          syn).final.workers.length := by
    have hkk : nfetch (iterate app src c0 store fidxs G sched syn).final
        = ((iterate app src c0 store fidxs G sched syn).final.workers.map
          (fun w => w.fetched.countP (fun p => decide (0 < p.2)))).sum := rfl
    have h6 := Nat.lt_of_le_of_lt hk hW
    rw [hkk] at h6
    rw [hlen]
    exact h6
  obtain ⟨w, hwmem, hcnt0⟩ := exists_zero_of_sum_lt _ _ hsum
  have hall0 : ∀ p ∈ w.fetched, p.2 = 0 := by
    intro p hp
    have h5 := List.countP_eq_zero.mp hcnt0 p hp
    simpa using h5
  have hwd : w.done = true := List.all_eq_true.mp hdone w hwmem
  obtain ⟨pre, q, hfe, hqN, hpre⟩ := H.hdone w hwmem hwd
  have hpre0 : pre = [] := by
    by_contra hne2
    obtain ⟨p, hp⟩ := List.exists_mem_of_ne_nil pre hne2
    have hpmem : p ∈ w.fetched := by
      rw [hfe]
      exact List.mem_append_left _ hp
    have hp2 : p.2 = 0 := hall0 p hpmem
    have hdis := (H.hfetch w hwmem p hpmem).2
    have hlt := hpre p hp
    rcases hdis with h | h <;> omega
  subst hpre0
  simp only [List.nil_append] at hfe
  have hq2 : q.2 = 0 := hall0 q (by
    rw [hfe]
    exact List.mem_singleton_self _)
  have hq1 : q.1 = src.length := by omega
  refine ⟨w, hwmem, ?_, ?_, hwd⟩
  · have hq : q = (src.length, 0) := Prod.ext hq1 hq2
    rw [hfe, hq]
  · rw [H.hitems w hwmem, hfe]
    simp [fetchSlice, hq2]

/-- Witness for C4: 5 items, groupSize 10, 3 workers; ceil(5/10) = 1 < 3,
and indeed a worker fetched the zero-length batch at cursor 5. -/
theorem c4_witness :
    ∃ w ∈ (iterate addApp [1, 2, 3, 4, 5] 0 [0, 0, 0] [0, 1, 2] 10 [0, 1, 2]
        0).final.workers,
      w.fetched = [(5, 0)] ∧ w.items = [] ∧ w.done = true :=
  c4_zero_length_first_batch addApp [1, 2, 3, 4, 5] 0 [0, 0, 0] [0, 1, 2] 10
    [0, 1, 2] 0 (by decide) (by decide) (by decide)

/-- C3 counterexample.  The claim says a call to `iterate` with
`groupSize < 1` reports a configuration error before any dispatch, with no
worker running and no item processed.  In the code there is no validation:
with groupSize 0, one functor and a non-empty source, the command vector is
dispatched (commandCount = 1) and the dispatched worker does run — it
performs a fetch (records `(0, 0)`), so its loop body executed. -/
theorem c3_counterexample :
    (iterate addApp [7] 0 [0] [0] 0 [0] 0).commandCount = 1 ∧
    ∃ w ∈ (iterate addApp [7] 0 [0] [0] 0 [0] 0).final.workers,
      w.fetched ≠ [] := by decide

/-- C3 amended.  `iterate` performs no configuration validation: every call
proceeds to dispatch exactly one command per supplied functor, whatever the
group size and even for an empty functor list, and no error is reported
(the embedding has no error outcome because the code has no error path).
Moreover with `groupSize = 0` and a non-empty source no schedule ever
finishes the dispatched workers: the call can never satisfy `allDone`. -/
theorem c3_no_validation {α β : Type} [Inhabited β] (app : β → α → β)
    (src : List α) (c0 : Nat) (store : List β) (fidxs : List Nat) (G : Nat)
    (sched : List Nat) (syn : Nat) :
    (iterate app src c0 store fidxs G sched syn).commandCount
      = fidxs.length ∧
    (G = 0 → 0 < src.length → 0 < fidxs.length →
      allDone (iterate app src c0 store fidxs G sched syn).final = false) := by
  constructor
  · simp [iterate]
  · intro hG0 hsrc hW
    subst hG0
    by_contra hcontra
    have hdone : allDone (iterate app src c0 store fidxs 0 sched syn).final
        = true := by
      revert hcontra
      cases allDone (iterate app src c0 store fidxs 0 sched syn).final <;>
        simp
    have H := inv_iterate app src c0 store fidxs 0 sched syn
    have hlen := congrArg List.length H.hmap
    rw [List.length_map] at hlen
    have hne : (iterate app src c0 store fidxs 0 sched syn).final.workers
        ≠ [] := by
      intro h0
      rw [h0] at hlen
      simp at hlen
      omega
    obtain ⟨w, hwmem, hwd⟩ := exists_done_of_allDone hdone hne
    have hcN := cursor_eq_of_done H hwmem hwd
    have hc0 : (iterate app src c0 store fidxs 0 sched syn).final.cursor
        = 0 := by
      rw [iterate_final_eq, run_cursor_groupSize_zero]
    omega

/-- Witness for C3-amended: with groupSize 0 the single worker can never
finish, and the command count ignores the invalid group size. -/
theorem c3_no_validation_witness :
    (iterate addApp [7] 0 [0] [0] 0 [0] 0).commandCount = 1 ∧
    allDone (iterate addApp [7] 0 [0] [0] 0 [0] 0).final = false :=
  ⟨(c3_no_validation addApp [7] 0 [0] [0] 0 [0] 0).1,
   (c3_no_validation addApp [7] 0 [0] [0] 0 [0] 0).2 rfl (by decide)
     (by decide)⟩

/-- C9.  Synchronizer lifecycle: each `iterate` call allocates one fresh
synchronizer (`newSynchro()` yields id `syn`), binds that same id into
every `IteratorCommand` it creates, destroys it after `dispatchCommands`
returns, and a subsequent `iterate` call (given the allocator state the
first call left) uses a different synchronizer id, so no synchronizer is
shared across separate `iterate` invocations. -/
theorem c9_synchronizer_lifecycle {α β : Type} [Inhabited β]
    (app : β → α → β) (src : List α) (c0 : Nat) (store : List β)
    (fidxs : List Nat) (G : Nat) (sched : List Nat) (syn : Nat) :
    (iterate app src c0 store fidxs G sched syn).synchroId = syn ∧
    (iterate app src c0 store fidxs G sched syn).commandSynchros
      = List.replicate fidxs.length syn ∧
    (iterate app src c0 store fidxs G sched syn).synchroDestroyed = true ∧
    (iterate app src c0 store fidxs G sched syn).nextSynchro = syn + 1 ∧
    ∀ (src₂ : List α) (c₂ : Nat) (store₂ : List β) (fidxs₂ : List Nat)
      (G₂ : Nat) (sched₂ : List Nat),
      (iterate app src₂ c₂ store₂ fidxs₂ G₂ sched₂
          (iterate app src c0 store fidxs G sched syn).nextSynchro).synchroId
        ≠ (iterate app src c0 store fidxs G sched syn).synchroId := by
  refine ⟨rfl, ?_, rfl, rfl, ?_⟩
  · show (fidxs.map (fun i => (i, syn))).map (fun c => c.2)
      = List.replicate fidxs.length syn
    rw [List.map_map]
    exact List.map_const' fidxs syn
  · intro src₂ c₂ store₂ fidxs₂ G₂ sched₂
    show syn + 1 ≠ syn
    omega

/-- Witness for C9 at concrete arguments, including the freshness of the
next call's synchronizer. -/
theorem c9_witness :
    (iterate addApp [10, 20, 30] 0 [0, 0] [0, 1] 2 [0, 1, 0, 1]
      5).commandSynchros = [5, 5] ∧
    (iterate addApp [10, 20, 30] 0 [0, 0] [0, 1] 2 [0, 1, 0, 1]
      5).synchroDestroyed = true ∧
    (iterate addApp [1] 0 [0] [0] 1 [0]
        (iterate addApp [10, 20, 30] 0 [0, 0] [0, 1] 2 [0, 1, 0, 1]
          5).nextSynchro).synchroId
      ≠ (iterate addApp [10, 20, 30] 0 [0, 0] [0, 1] 2 [0, 1, 0, 1]
          5).synchroId :=
  ⟨(c9_synchronizer_lifecycle addApp [10, 20, 30] 0 [0, 0] [0, 1] 2
      [0, 1, 0, 1] 5).2.1,
   (c9_synchronizer_lifecycle addApp [10, 20, 30] 0 [0, 0] [0, 1] 2
      [0, 1, 0, 1] 5).2.2.1,
   (c9_synchronizer_lifecycle addApp [10, 20, 30] 0 [0, 0] [0, 1] 2
      [0, 1, 0, 1] 5).2.2.2.2 [1] 0 [0] [0] 1 [0]⟩

/-- C7.  The single-functor `iterate` overload creates exactly
`getExecutionUnitsNumber()` (= `units`) independent copies of the supplied
functor — copy-constructed from the caller's functor value — dispatches
exactly one command per copy, runs the batched protocol over those copies
(so copy `i` ends holding precisely the fold of the worker's private item
sequence over the original functor's starting value, accumulating its own
private state), and the copies are deleted before the overload returns
(the caller-visible heap has its original length again). -/
theorem c7_overload_copies {α β : Type} [Inhabited β] (app : β → α → β)
    (src : List α) (c0 : Nat) (store : List β) (i0 : Nat) (units : Nat)
    (G : Nat) (sched : List Nat) (syn : Nat) (i : Nat) (hi : i < units) :
    (iterate1 app src c0 store i0 units G sched syn).copies
      = List.replicate units (store.getD i0 default) ∧
    (iterate1 app src c0 store i0 units G sched syn).run.commandCount
      = units ∧
    (iterate1 app src c0 store i0 units G sched syn).finalStore.length
      = store.length ∧
    ∃ w, (iterate1 app src c0 store i0 units G sched
        syn).run.final.workers.get? i = some w ∧
      (iterate1 app src c0 store i0 units G sched syn).run.final.store.get?
          w.fidx
        = some (w.items.foldl app (store.getD i0 default)) := by
  have H := inv_iterate app src c0
    (store ++ List.replicate units (store.getD i0 default))
    (List.range' store.length units) G sched syn
  have hrun : (iterate1 app src c0 store i0 units G sched syn).run
      = iterate app src c0
          (store ++ List.replicate units (store.getD i0 default))
          (List.range' store.length units) G sched syn := rfl
  have hs0len : (store ++ List.replicate units
      (store.getD i0 default)).length = store.length + units := by
    simp
  refine ⟨rfl, ?_, ?_, ?_⟩
  · rw [hrun]
    simp [iterate]
  · show ((iterate1 app src c0 store i0 units G sched
        syn).run.final.store.take store.length).length = store.length
    rw [hrun, List.length_take]
    have hsl := H.hslen
    rw [hs0len] at hsl
    omega
  · have hlenw := congrArg List.length H.hmap
    rw [List.length_map, List.length_range'] at hlenw
    have hiw : i < (iterate app src c0
        (store ++ List.replicate units (store.getD i0 default))
        (List.range' store.length units) G sched
        syn).final.workers.length := by omega
    cases hg : (iterate app src c0
        (store ++ List.replicate units (store.getD i0 default))
        (List.range' store.length units) G sched
        syn).final.workers.get? i with
    | none =>
      rw [List.get?_eq_none] at hg
      omega
    | some w =>
      rw [hrun]
      refine ⟨w, hg, ?_⟩
      have hfidx : w.fidx = store.length + i := by
        have h1 : ((iterate app src c0
            (store ++ List.replicate units (store.getD i0 default))
            (List.range' store.length units) G sched
            syn).final.workers.map WorkerState.fidx).get? i
            = some w.fidx := by
          rw [List.get?_map, hg]
          rfl
        rw [H.hmap, range1_get? hi] at h1
        injection h1 with h1
        omega
      have hv : (store ++ List.replicate units
          (store.getD i0 default)).get? w.fidx
          = some (store.getD i0 default) := by
        rw [hfidx, List.get?_append_right (by omega)]
        have h2 : store.length + i - store.length = i := by omega
        rw [h2, List.get?_eq_getElem?, List.getElem?_replicate, if_pos hi]
      refine H.hstore (List.nodup_range' _ _) ?_ i w hg _ hv
      intro j hj
      have := mem_range1.mp hj
      omega

/-- Witness for C7: one caller functor (value 5), two copies, and copy 0
ends holding 5 + 1 + 2 = 8, the fold of its private items over 5. -/
theorem c7_witness :
    (iterate1 addApp [1, 2, 3] 0 [5] 0 2 2 [0, 1, 0] 0).copies
      = List.replicate 2 5 ∧
    (iterate1 addApp [1, 2, 3] 0 [5] 0 2 2 [0, 1, 0] 0).run.commandCount
      = 2 ∧
    (iterate1 addApp [1, 2, 3] 0 [5] 0 2 2 [0, 1, 0] 0).finalStore.length
      = 1 ∧
    ∃ w, (iterate1 addApp [1, 2, 3] 0 [5] 0 2 2 [0, 1, 0]
        0).run.final.workers.get? 0 = some w ∧
      (iterate1 addApp [1, 2, 3] 0 [5] 0 2 2 [0, 1, 0]
          0).run.final.store.get? w.fidx
        = some (w.items.foldl addApp 5) :=
  c7_overload_copies addApp [1, 2, 3] 0 [5] 0 2 2 [0, 1, 0] 0 0 (by decide)

/-- C10.  Original functor untouched: the single-functor overload only
copy-constructs from the caller's functor; every dispatched worker operates
on a copy living past the end of the caller's heap (so the original entry
is never invoked), and the caller-visible heap after the overload returns
is exactly what it was before the call. -/
theorem c10_original_untouched {α β : Type} [Inhabited β] (app : β → α → β)
    (src : List α) (c0 : Nat) (store : List β) (i0 : Nat) (units : Nat)
    (G : Nat) (sched : List Nat) (syn : Nat) :
    (iterate1 app src c0 store i0 units G sched syn).finalStore = store ∧
    ∀ w ∈ (iterate1 app src c0 store i0 units G sched
        syn).run.final.workers, store.length ≤ w.fidx := by
  have H := inv_iterate app src c0
    (store ++ List.replicate units (store.getD i0 default))
    (List.range' store.length units) G sched syn
  have hrun : (iterate1 app src c0 store i0 units G sched syn).run
      = iterate app src c0
          (store ++ List.replicate units (store.getD i0 default))
          (List.range' store.length units) G sched syn := rfl
  constructor
  · show (iterate1 app src c0 store i0 units G sched
        syn).run.final.store.take store.length = store
    rw [hrun]
    apply List.ext
    intro n
    by_cases hn : n < store.length
    · rw [List.get?_take hn]
      have hnot : n ∉ List.range' store.length units := by
        rw [mem_range1]
        omega
      rw [H.huntouched n hnot, List.get?_append hn]
    · have hs0len : (store ++ List.replicate units
          (store.getD i0 default)).length = store.length + units := by
        simp
      have h1 : ((iterate app src c0
          (store ++ List.replicate units (store.getD i0 default))
          (List.range' store.length units) G sched
          syn).final.store.take store.length).get? n = none := by
        rw [List.get?_eq_none, List.length_take]
        omega
      have h2 : store.get? n = none := List.get?_eq_none.mpr (by omega)
      rw [h1, h2]
  · intro w hwmem
    rw [hrun] at hwmem
    have hmem : w.fidx ∈ List.range' store.length units := by
      rw [← H.hmap]
      exact List.mem_map_of_mem _ hwmem
    exact (mem_range1.mp hmem).1

/-- Witness for C10: after the overload the caller's heap is `[5]` again,
and the concrete dispatched workers all hold copy indices past it. -/
theorem c10_witness :
    (iterate1 addApp [1, 2, 3] 0 [5] 0 2 2 [0, 1, 0] 0).finalStore = [5] ∧
    1 ≤ (⟨1, [(0, 2), (3, 0)], [1, 2], true⟩ : WorkerState Nat).fidx :=
  ⟨(c10_original_untouched addApp [1, 2, 3] 0 [5] 0 2 2 [0, 1, 0] 0).1,
   (c10_original_untouched addApp [1, 2, 3] 0 [5] 0 2 2 [0, 1, 0] 0).2
     ⟨1, [(0, 2), (3, 0)], [1, 2], true⟩ (by decide)⟩

/-! ### Trace facts about one execute run -/

/-- With no fuel left, nothing happens. -/
theorem executeLoop_zero {σ ε α : Type}
    (fetch : σ → Except ε (List α × Bool × σ)) (s : σ) :
    executeLoop fetch 0 s = ([], s, none) := rfl

/-- A failing fetch: the lock is taken, the exception propagates, and the
trailing unlock is never reached. -/
theorem executeLoop_succ_error {σ ε α : Type}
    (fetch : σ → Except ε (List α × Bool × σ)) (n : Nat) (s : σ) (e : ε)
    (hf : fetch s = .error e) :
    executeLoop fetch (n + 1) s = ([Event.lock], s, some e) := by
  simp [executeLoop, hf]

/-- A successful fetch with more items to come: lock, unlock, invoke each
item, then continue the loop. -/
theorem executeLoop_succ_ok_true {σ ε α : Type}
    (fetch : σ → Except ε (List α × Bool × σ)) (n : Nat) (s s' : σ)
    (items : List α) (hf : fetch s = .ok (items, true, s')) :
    executeLoop fetch (n + 1) s
      = (Event.lock :: Event.unlock
          :: (items.map Event.invoke ++ (executeLoop fetch n s').1),
        (executeLoop fetch n s').2.1, (executeLoop fetch n s').2.2) := by
  simp [executeLoop, hf]

/-- The final successful fetch: lock, unlock, invoke each item, stop. -/
theorem executeLoop_succ_ok_false {σ ε α : Type}
    (fetch : σ → Except ε (List α × Bool × σ)) (n : Nat) (s s' : σ)
    (items : List α) (hf : fetch s = .ok (items, false, s')) :
    executeLoop fetch (n + 1) s
      = (Event.lock :: Event.unlock :: items.map Event.invoke, s', none) := by
  simp [executeLoop, hf]

/-- `invokesUnlocked` distributes over concatenation through `depthAfter`. -/
theorem invokesUnlocked_append {α : Type} (xs ys : List (Event α)) (d : Nat) :
    invokesUnlocked d (xs ++ ys)
      = (invokesUnlocked d xs && invokesUnlocked (depthAfter d xs) ys) := by
  induction xs generalizing d with
  | nil => simp [invokesUnlocked, depthAfter]
  | cons e t ih =>
    cases e <;> simp [invokesUnlocked, depthAfter, ih, Bool.and_assoc]

/-- A run of invocations at depth 0 is fine. -/
theorem invokesUnlocked_invokes {α : Type} (items : List α) :
    invokesUnlocked 0 (items.map Event.invoke) = true := by
  induction items with
  | nil => rfl
  | cons a t ih => simp [invokesUnlocked, ih]

/-- Invocations do not change the lock depth. -/
theorem depthAfter_invokes {α : Type} (items : List α) (d : Nat) :
    depthAfter d (items.map Event.invoke) = d := by
  induction items with
  | nil => rfl
  | cons a t ih => simp [depthAfter, ih]

/-- C5.  The synchronizer is never held across processing: in every
iteration of every worker's loop (any shared-iterator behavior `fetch`,
any fuel, any start state), each functor invocation in the event trace of
`IteratorCommand::execute` happens at lock depth 0 — the unlock after the
fetch always precedes the invocations, so a functor that blocks or fails
never does so while holding the synchronizer. -/
theorem c5_lock_released_before_processing {σ ε α : Type}
    (fetch : σ → Except ε (List α × Bool × σ)) (fuel : Nat) (s : σ) :
    invokesUnlocked 0 (executeLoop fetch fuel s).1 = true := by
  induction fuel generalizing s with
  | zero => rfl
  | succ n ih =>
    cases hf : fetch s with
    | error e =>
      rw [executeLoop_succ_error fetch n s e hf]
      rfl
    | ok r =>
      obtain ⟨items, bRun, s'⟩ := r
      cases bRun with
      | true =>
        rw [executeLoop_succ_ok_true fetch n s s' items hf]
        show invokesUnlocked 0
          (Event.lock :: Event.unlock
            :: (items.map Event.invoke ++ (executeLoop fetch n s').1)) = true
        rw [invokesUnlocked, invokesUnlocked, invokesUnlocked_append,
          invokesUnlocked_invokes, depthAfter_invokes]
        simp [ih s']
      | false =>
        rw [executeLoop_succ_ok_false fetch n s s' items hf]
        show invokesUnlocked 0
          (Event.lock :: Event.unlock :: items.map Event.invoke) = true
        rw [invokesUnlocked, invokesUnlocked]
        exact invokesUnlocked_invokes items

/-- Invocation events are not lock events. -/
theorem countP_isLock_invokes {α : Type} (items : List α) :
    (items.map Event.invoke).countP isLock = 0 := by
  rw [List.countP_eq_zero]
  intro a ha
  rw [List.mem_map] at ha
  obtain ⟨x, _, rfl⟩ := ha
  simp [isLock]

/-- Invocation events are not unlock events. -/
theorem countP_isUnlock_invokes {α : Type} (items : List α) :
    (items.map Event.invoke).countP isUnlock = 0 := by
  rw [List.countP_eq_zero]
  intro a ha
  rw [List.mem_map] at ha
  obtain ⟨x, _, rfl⟩ := ha
  simp [isUnlock]

/-- A fetch that always fails, as a concrete counterexample scenario. -/
def failFetch : Unit → Except Unit (List Nat × Bool × Unit) :=
  fun _ => Except.error ()

/-- C2 counterexample.  The claim says that when `Iterator::get` fails the
synchronizer is nevertheless released on the fetch path's exit.  In the
code `execute` is `lock(); get(); unlock();` with no scope guard or catch,
so the exception thrown by `get` propagates past the unlock: in the run
below the worker terminates with the failure recorded, its trace contains
one lock acquisition and zero releases — the synchronizer is still held. -/
theorem c2_counterexample :
    (executeLoop failFetch 1 ()).2.2 = some () ∧
    (executeLoop failFetch 1 ()).1.countP isLock = 1 ∧
    (executeLoop failFetch 1 ()).1.countP isUnlock = 0 := by decide

/-- C2 amended.  On every complete run of `execute`: if it ends without a
fetch failure the trace is lock-balanced (every acquisition has a matching
release — in particular the release after the fetch happened on every
iteration); but if the fetch fails, the worker terminates with exactly one
more acquisition than releases — the synchronizer is NOT released on the
failing fetch path, because the straight-line `lock; get; unlock` sequence
has no scoped-release protection. -/
theorem c2_lock_release_on_fetch_paths {σ ε α : Type}
    (fetch : σ → Except ε (List α × Bool × σ)) (fuel : Nat) (s : σ) :
    ((executeLoop fetch fuel s).2.2.isSome = true →
      (executeLoop fetch fuel s).1.countP isLock
        = (executeLoop fetch fuel s).1.countP isUnlock + 1) ∧
    ((executeLoop fetch fuel s).2.2 = none →
      (executeLoop fetch fuel s).1.countP isLock
        = (executeLoop fetch fuel s).1.countP isUnlock) := by
  induction fuel generalizing s with
  | zero =>
    constructor
    · intro h
      rw [executeLoop_zero] at h
      simp at h
    · intro _
      rfl
  | succ n ih =>
    cases hf : fetch s with
    | error e =>
      rw [executeLoop_succ_error fetch n s e hf]
      constructor
      · intro _
        rfl
      · intro h
        simp at h
    | ok r =>
      obtain ⟨items, bRun, s'⟩ := r
      cases bRun with
      | true =>
        rw [executeLoop_succ_ok_true fetch n s s' items hf]
        have hL : (Event.lock :: Event.unlock
            :: (items.map Event.invoke ++ (executeLoop fetch n s').1) :
              List (Event α)).countP isLock
            = (executeLoop fetch n s').1.countP isLock + 1 := by
          rw [List.countP_cons, List.countP_cons, List.countP_append,
            countP_isLock_invokes]
          simp [isLock, isUnlock]
        have hU : (Event.lock :: Event.unlock
            :: (items.map Event.invoke ++ (executeLoop fetch n s').1) :
              List (Event α)).countP isUnlock
            = (executeLoop fetch n s').1.countP isUnlock + 1 := by
          rw [List.countP_cons, List.countP_cons, List.countP_append,
            countP_isUnlock_invokes]
          simp [isLock, isUnlock]
        constructor
        · intro h
          rw [hL, hU, (ih s').1 h]
        · intro h
          rw [hL, hU, (ih s').2 h]
      | false =>
        rw [executeLoop_succ_ok_false fetch n s s' items hf]
        constructor
        · intro h
          simp at h
        · intro _
          simp [List.countP_cons, countP_isLock_invokes,
            countP_isUnlock_invokes, isLock, isUnlock, Function.comp_def,
            List.countP_false]

/-- A fetch that immediately reports exhaustion, for the success witness. -/
def emptyFetch : Unit → Except Unit (List Nat × Bool × Unit) :=
  fun _ => Except.ok ([], false, ())

/-- Witness for C2-amended: a failing run leaks the lock (counts 1 vs 0);
a successful run is balanced. -/
theorem c2_amended_witness :
    (executeLoop failFetch 3 ()).1.countP isLock
      = (executeLoop failFetch 3 ()).1.countP isUnlock + 1 ∧
    (executeLoop emptyFetch 3 ()).1.countP isLock
      = (executeLoop emptyFetch 3 ()).1.countP isUnlock :=
  ⟨(c2_lock_release_on_fetch_paths failFetch 3 ()).1 (by decide),
   (c2_lock_release_on_fetch_paths emptyFetch 3 ()).2 (by decide)⟩

end GatbICommand
